import Mathlib

/-!
Shallow embedding of the quantgpt backtesting engine, covering the
trading calendar (`financial_tools/ft_calendar.py`), the trade/position
aggregation objects (`financial_tools/types/objects.py`), the
per-strategy portfolio processor (`quantgpt/core/portfolio/processor.py`),
the PnL attribution engine (`framework/performance/manager.py`) and the
chronological data iterator (`framework/data/processor.py`).

Machine conventions: Python ints are `Int`, Python floats that the code
uses for prices / weights are `Rat` (the engine only ever performs exact
field operations on them), `float("inf")` used as a limit-price sentinel
is a dedicated constructor of `LimitPrice`, and a Python function that
can raise is embedded as `Except String` / `Option`.
-/

namespace Quantgpt

/-- `bisect.bisect_left` on a sorted list: index of the first element
that is not `< x` (equivalently, the insertion point keeping the list
sorted, left of any run of elements equal to `x`). -/
def bisect_left : List Int → Int → Nat
  | [], _ => 0
  | y :: ys, x => if y < x then bisect_left ys x + 1 else 0

/-- `bisect.insort` on a sorted list: insert `x` after any elements
equal to it (right insertion point). -/
def insort : List Int → Int → List Int
  | [], x => [x]
  | y :: ys, x => if x < y then x :: y :: ys else y :: insort ys x

/-- The `direction` argument of `TradingCalendar.nearest`. -/
inductive Direction where
  | before
  | after
  | nearest
deriving DecidableEq, Repr

/-- `TradingCalendar.nearest` (ft_calendar.py lines 49-71): binary
search for `timestamp` in the sorted `timestamps` sequence, then
resolve according to `direction`.  A raised `ValueError` / `IndexError`
is an `Except.error`. -/
def nearest (timestamps : List Int) (timestamp : Int) (direction : Direction) :
    Except String Int :=
  let index := bisect_left timestamps timestamp
  match direction with
  | .before =>
      if index = 0 then .error "No timestamp before the given timestamp."
      else
        match timestamps[index - 1]? with
        | some v => .ok v
        | none => .error "IndexError"
  | .after =>
      if index = timestamps.length then .error "No timestamp after the given timestamp."
      else
        match timestamps[index]? with
        | some v => .ok v
        | none => .error "IndexError"
  | .nearest =>
      if index = 0 then
        match timestamps[0]? with
        | some v => .ok v
        | none => .error "IndexError"
      else if index = timestamps.length then
        match timestamps[timestamps.length - 1]? with
        | some v => .ok v
        | none => .error "IndexError"
      else
        match timestamps[index - 1]?, timestamps[index]? with
        | some b, some a =>
            if a - timestamp < timestamp - b then .ok a else .ok b
        | _, _ => .error "IndexError"

/-- `TradingCalendar.add_timestamp` (ft_calendar.py lines 78-88):
inserts only at an interior insertion point and only when the new
timestamp sits exactly midway between its would-be neighbours. -/
def add_timestamp (timestamps : List Int) (timestamp : Int) :
    Except String (List Int) :=
  let index := bisect_left timestamps timestamp
  if 0 < index ∧ index < timestamps.length then
    match timestamps[index]?, timestamps[index - 1]? with
    | some hi, some lo =>
        if hi - timestamp = timestamp - lo then .ok (insort timestamps timestamp)
        else .error "Adding this timestamp would violate uniform sampling."
    | _, _ => .error "IndexError"
  else .error "Adding this timestamp is not supported at the edges of the calendar."

/-- `TradingCalendar.remove_timestamp` (ft_calendar.py lines 90-95):
removes the element at the left bisection point when it equals the
query, and fails otherwise. -/
def remove_timestamp (timestamps : List Int) (timestamp : Int) :
    Except String (List Int) :=
  let index := bisect_left timestamps timestamp
  match timestamps[index]? with
  | some v =>
      if v = timestamp then .ok (timestamps.eraseIdx index)
      else .error "Timestamp not found in calendar."
  | none => .error "Timestamp not found in calendar."

/- ## Data model (`financial_tools/types`) -/

/-- `AssetClass` enum: the source declares a single member. -/
inductive AssetClass where
  | US_EQUITY
deriving DecidableEq, Repr

/-- `TradeType` enum: the source declares a single member. -/
inductive TradeType where
  | SIMPLE_FIXED
deriving DecidableEq, Repr

/-- `SignalType` enum. -/
inductive SignalType where
  | Z_SCORE_LONG
  | Z_SCORE_SHORT
deriving DecidableEq, Repr

/-- `Symbol`: ticker plus asset class (equality is by this pair; the
known-symbols registry validation is file-backed and out of scope). -/
structure Symbol where
  value : String
  asset_class : AssetClass
deriving DecidableEq, Repr

/-- A trade's limit price: a Python float that the engine only ever sets
to `float("inf")` (accept any price, buying), `0`, or a finite value. -/
inductive LimitPrice where
  | posInf
  | fin (price : Rat)
deriving DecidableEq, Repr

/-- `trade_price <= limit_price` on Python floats with `inf`. -/
def priceLE (trade_price : Rat) (limit : LimitPrice) : Bool :=
  match limit with
  | .posInf => true
  | .fin l => decide (trade_price ≤ l)

/-- `trade_price >= limit_price` on Python floats with `inf`. -/
def priceGE (trade_price : Rat) (limit : LimitPrice) : Bool :=
  match limit with
  | .posInf => false
  | .fin l => decide (l ≤ trade_price)

/-- `Trade` (objects.py lines 53-73). -/
structure Trade where
  timestamp : Int
  symbol : Symbol
  quantity : Int
  limit_price : LimitPrice
  trade_type : TradeType
deriving DecidableEq, Repr

/-- `Position` (objects.py lines 40-50). -/
structure Position where
  symbol : Symbol
  quantity : Int
  cost_basis : Rat
deriving DecidableEq, Repr

/-- `Signal` (objects.py lines 12-37). -/
structure Signal where
  timestamp : Int
  symbol : Symbol
  signal_type : SignalType
  signal_strength : Rat
  strategy_name : String

/-- `np.sign` on an integer quantity. -/
def np_sign (x : Int) : Int :=
  if 0 < x then 1 else if x < 0 then -1 else 0

/-- `AggregatedTrades.update_trade` (objects.py lines 172-206): merge an
incoming trade of the same symbol into the running aggregate.  The
`ValueError` on mismatched trade types is an `Except.error`. -/
def update_trade (aggregate : Option Trade) (trade : Trade) : Except String Trade :=
  match aggregate with
  | none => .ok trade
  | some agg =>
      if agg.trade_type ≠ trade.trade_type then
        .error "Trade types do not match"
      else
        let quantity :=
          if np_sign trade.quantity ≠ np_sign agg.quantity then
            -- signs are different, so net the trades out
            agg.quantity + trade.quantity
          else if (trade.limit_price = LimitPrice.posInf ∧ 0 < trade.quantity)
              ∨ (trade.limit_price = LimitPrice.fin 0 ∧ trade.quantity < 0) then
            agg.quantity + trade.quantity
          else
            agg.quantity
        .ok ⟨agg.timestamp, agg.symbol, quantity, agg.limit_price, agg.trade_type⟩

/-- `AggregatedPositions.update_position` (objects.py lines 115-134):
the division by `total_quantity` is unguarded in the source; a
`ZeroDivisionError` is `none`. -/
def update_position (aggregate : Option Position) (position : Position) :
    Option Position :=
  match aggregate with
  | some agg =>
      let total_quantity := agg.quantity + position.quantity
      if total_quantity = 0 then none
      else
        some ⟨position.symbol, total_quantity,
          (agg.cost_basis * agg.quantity + position.cost_basis * position.quantity)
            / total_quantity⟩
  | none => some position

/-- First-match association-list lookup, modelling `dict.get`. -/
def assocLookup {α : Type} (m : List (Symbol × α)) (s : Symbol) : Option α :=
  match m with
  | [] => none
  | e :: rest => if e.1 = s then some e.2 else assocLookup rest s

/-- `dict[key] = value`, modelling insertion-ordered Python dicts:
update the existing slot in place, or append a new entry. -/
def assocSet {α : Type} (m : List (Symbol × α)) (s : Symbol) (v : α) :
    List (Symbol × α) :=
  match m with
  | [] => [(s, v)]
  | e :: rest => if e.1 = s then (s, v) :: rest else e :: assocSet rest s v

/-- Lookup into the nested strategy → symbol → value map
(`nested_dict`, auto-vivifying: a missing strategy reads as empty). -/
def assocLookup2 {α : Type} (m : List (String × List (Symbol × α)))
    (strat : String) (s : Symbol) : Option α :=
  match m with
  | [] => none
  | e :: rest => if e.1 = strat then assocLookup e.2 s else assocLookup2 rest strat s

/-- Set into the nested strategy → symbol → value map. -/
def assocSet2 {α : Type} (m : List (String × List (Symbol × α)))
    (strat : String) (s : Symbol) (v : α) : List (String × List (Symbol × α)) :=
  match m with
  | [] => [(strat, [(s, v)])]
  | e :: rest =>
      if e.1 = strat then (e.1, assocSet e.2 s v) :: rest
      else e :: assocSet2 rest strat s v

/-- `AggregatedPositions.aggregate` (objects.py lines 85-113): fold all
per-strategy position lists into a global symbol-keyed map and a
per-strategy map, raising (= `none`) as soon as `update_position`
divides by a zero total quantity.  The global map is updated first,
exactly as in the source. -/
def aggregate_positions (raw_positions : List (String × List Position)) :
    Option (List (Symbol × Position) × List (String × List (Symbol × Position))) :=
  raw_positions.foldl
    (fun acc entry =>
      entry.2.foldl
        (fun acc2 position =>
          match acc2 with
          | none => none
          | some (agg, aggByStrat) =>
              match update_position (assocLookup agg position.symbol) position with
              | none => none
              | some updated =>
                  match update_position (assocLookup2 aggByStrat entry.1 position.symbol)
                      position with
                  | none => none
                  | some updatedByStrat =>
                      some (assocSet agg position.symbol updated,
                        assocSet2 aggByStrat entry.1 position.symbol updatedByStrat))
        acc)
    (some ([], []))

/- ## PortfolioProcessor (`quantgpt/core/portfolio/processor.py`) -/

/-- Python `int(...)` applied to a float: truncation toward zero. -/
def pyInt (q : Rat) : Int :=
  if 0 ≤ q then Int.floor q else Int.ceil q

/-- `PortfolioProcessor.Action`. -/
inductive Action where
  | OPEN
  | CLOSE
deriving DecidableEq, Repr

/-- Per-asset-class trade configuration (`trade_config["by_asset_class"]`):
the holding period is already converted to seconds
(`convert_time_delta_str`) and the dollar size to a number. -/
structure AssetProps where
  holding_period : Int
  trade_size_in_dollars : Rat

/-- The strategy's `trade_config`. -/
structure TradeConfig where
  starting_cash : Rat
  byAssetClass : AssetClass → AssetProps

/-- Live data under the only supported `NYC_DAILY_OPEN` convention:
today's open price per symbol.  The engine raises a `KeyError` when a
symbol's row is absent; the claims under verification only concern
symbols whose rows are present, so the map is total here. -/
def LiveOpen : Type := Symbol → Rat

/-- The mutable state of one `PortfolioProcessor`. -/
structure PortfolioState where
  cash : Rat
  open_positions_by_symbol : List (Symbol × Position)
  open_trades : List Trade

/-- `PortfolioProcessor._is_valid_trade` (processor.py lines 275-281);
under `NYC_DAILY_OPEN` the trade price is always resolved, so the
`trade_price is not None` conjunct always holds. -/
def is_valid_trade (trade_price : Rat) (quantity : Int) (limit_price : LimitPrice) : Bool :=
  (decide (0 < quantity) && priceLE trade_price limit_price)
    || (decide (quantity < 0) && priceGE trade_price limit_price)

/-- `PortfolioProcessor._get_trade_details` (processor.py lines 283-309):
resolve the fill price from live data (the open price) and keep the
trade only when it passes the price/limit check. -/
def get_trade_details (trade : Trade) (live : LiveOpen) :
    Option (Symbol × Int × Rat) :=
  let trade_price := live trade.symbol
  if is_valid_trade trade_price trade.quantity trade.limit_price then
    some (trade.symbol, trade.quantity, trade_price)
  else
    none

/-- `PortfolioProcessor._update_position_and_cash` (processor.py lines
193-236): create-or-reaverage the symbol's position and decrement cash.
(The early return on a `None` trade price is unreachable here because
`_process_position` only calls this with a resolved price.) -/
def update_position_and_cash (st : PortfolioState) (trade_symbol : Symbol)
    (trade_quantity : Int) (trade_price : Rat) : PortfolioState :=
  match assocLookup st.open_positions_by_symbol trade_symbol with
  | some existing_position =>
      let new_quantity := trade_quantity + existing_position.quantity
      if new_quantity = 0 then
        { st with
          open_positions_by_symbol :=
            (st.open_positions_by_symbol.filter (fun e => !decide (e.1 = trade_symbol))),
          cash := st.cash - trade_quantity * trade_price }
      else
        let updated_avg_price :=
          (existing_position.cost_basis * existing_position.quantity
            + trade_price * trade_quantity) / new_quantity
        { st with
          open_positions_by_symbol :=
            assocSet st.open_positions_by_symbol trade_symbol
              ⟨trade_symbol, new_quantity, updated_avg_price⟩,
          cash := st.cash - trade_quantity * trade_price }
  | none =>
      { st with
        open_positions_by_symbol :=
          st.open_positions_by_symbol
            ++ [(trade_symbol, ⟨trade_symbol, trade_quantity, trade_price⟩)],
        cash := st.cash - trade_quantity * trade_price }

/-- `PortfolioProcessor._get_trade_size` (processor.py lines 238-273):
`int(weight * trade_size_in_dollars / open_price)`.  (The branch
returning 0 when the `Open` field is missing is not representable with
a total live map and is outside the claims.) -/
def get_trade_size (cfg : TradeConfig) (live : LiveOpen) (symbol : Symbol)
    (weight : Rat) : Int :=
  let props := cfg.byAssetClass symbol.asset_class
  pyInt (weight * props.trade_size_in_dollars / live symbol)

/-- `PortfolioProcessor._process_position` (processor.py lines 311-326):
apply the trade to position/cash when its details resolve, and return
the trade object itself in every case. -/
def process_position (action : Action) (trade : Trade) (live : LiveOpen)
    (st : PortfolioState) : PortfolioState × Trade :=
  match get_trade_details trade live with
  | some (symbol, quantity, trade_price) =>
      match action with
      | .OPEN => (update_position_and_cash st symbol quantity trade_price, trade)
      | .CLOSE => (update_position_and_cash st symbol (-quantity) trade_price, trade)
  | none => (st, trade)

/-- The signal loop of `PortfolioProcessor.execute_trades` (processor.py
lines 50-96): convert each signal into an opening trade (skipping
zero-size trades), executing it immediately.  Returns the updated
position/cash state and the list of new trades (which the source
appends both to `trades` and to `adj_open_trades`).  `SignalType` has
exactly the long/short members, so the `continue` for other signal
types and the `ValueError` for other trade types are unreachable. -/
def open_from_signals (cfg : TradeConfig) (timestamp : Int) (live : LiveOpen)
    (signals : List Signal) (weight : Rat) (st : PortfolioState) :
    PortfolioState × List Trade :=
  signals.foldl
    (fun acc signal =>
      let is_buy_signal := signal.signal_type = SignalType.Z_SCORE_LONG
      let sign : Int := if is_buy_signal then 1 else -1
      let trade_size := get_trade_size cfg live signal.symbol weight
      if trade_size = 0 then acc
      else
        let quantity := pyInt ((sign * trade_size : Int) * signal.signal_strength)
        let new_trade : Trade :=
          ⟨timestamp, signal.symbol, quantity,
            if is_buy_signal then LimitPrice.posInf else LimitPrice.fin 0,
            TradeType.SIMPLE_FIXED⟩
        let step := process_position Action.OPEN new_trade live acc.1
        (step.1, acc.2 ++ [step.2]))
    (st, [])

/-- The body of one iteration of the expiry loop of
`PortfolioProcessor.execute_trades` (processor.py lines 98-118):
force-close the trade when its `timestamp + holding_period` has been
reached, otherwise keep it in `adj_open_trades`.  The accumulator is
(state, closed trades so far, surviving open trades so far). -/
def closeStep (cfg : TradeConfig) (timestamp : Int) (live : LiveOpen)
    (acc : PortfolioState × List Trade × List Trade) (trade : Trade) :
    PortfolioState × List Trade × List Trade :=
  let props := cfg.byAssetClass trade.symbol.asset_class
  if trade.timestamp + props.holding_period ≤ timestamp then
    let step := process_position Action.CLOSE trade live acc.1
    (step.1, acc.2.1 ++ [step.2], acc.2.2)
  else
    (acc.1, acc.2.1, acc.2.2 ++ [trade])

/-- The expiry loop of `PortfolioProcessor.execute_trades`: fold
`closeStep` over the previously open trades.  Returns (state, closed
trades, surviving open trades). -/
def close_expired (cfg : TradeConfig) (timestamp : Int) (live : LiveOpen)
    (open_trades : List Trade) (st : PortfolioState) :
    PortfolioState × List Trade × List Trade :=
  open_trades.foldl (closeStep cfg timestamp live) (st, [], [])

/-- `PortfolioProcessor.execute_trades` (processor.py lines 42-121):
open trades from signals, then close expired ones; the returned list is
the new trades followed by the closed ones, and the retained open set
is the new trades followed by the survivors. -/
def execute_trades (cfg : TradeConfig) (timestamp : Int) (live : LiveOpen)
    (signals : List Signal) (weight : Rat) (st : PortfolioState) :
    PortfolioState × List Trade :=
  let opened := open_from_signals cfg timestamp live signals weight st
  let closed := close_expired cfg timestamp live st.open_trades opened.1
  ({ closed.1 with open_trades := opened.2 ++ closed.2.2 },
    opened.2 ++ closed.2.1)

/- ## PerformanceManager (`framework/performance/manager.py`) -/

/-- One symbol's slice of the future-data lookahead window: the `Open`
and `Close` columns indexed by forward row position.  Rows the engine
reads are assumed present (pandas raises otherwise); the columns are
therefore modelled as total sequences. -/
structure FutureRows where
  openCol : Nat → Rat
  closeCol : Nat → Rat

/-- `FutureData projected to one data type: per-symbol rows. -/
def FutureView : Type := Symbol → FutureRows

/-- One row of a per-symbol PnL table (columns Timestamp, NewTrade,
Positional). -/
structure PnlRow where
  timestamp : Int
  newTrade : Rat
  positional : Rat
deriving DecidableEq, Repr

/-- `PerformanceManager` accumulators: `pnl_by_symbol` and
`pnl_by_strategy_by_symbol`. -/
structure PerfState where
  pnl_by_symbol : List (Symbol × List PnlRow)
  pnl_by_strategy_by_symbol : List (String × List (Symbol × List PnlRow))

/-- `PerformanceManager._calculate_new_trade_pnl` (manager.py lines
301-332): per traded symbol, `(Close[0] - Open[0]) * quantity`. -/
def calculate_new_trade_pnl (trades : List (Symbol × Trade)) (future_data : FutureView) :
    List (Symbol × Rat) :=
  trades.map
    (fun e =>
      (e.1, ((future_data e.1).closeCol 0 - (future_data e.1).openCol 0)
        * (e.2.quantity : Rat)))

/-- `PerformanceManager._calculate_positional_pnl` (manager.py lines
362-393): per held symbol, `(Close[1] - Close[0]) * quantity`. -/
def calculate_positional_pnl (positions : List (Symbol × Position))
    (future_data : FutureView) : List (Symbol × Rat) :=
  positions.map
    (fun e =>
      (e.1, ((future_data e.1).closeCol 1 - (future_data e.1).closeCol 0)
        * (e.2.quantity : Rat)))

/-- `PerformanceManager._calculate_pnl` (manager.py lines 395-444):
one row per traded symbol attributed to the current timestamp, and one
row per held symbol attributed to the next timestamp. -/
def calculate_pnl (timestamp next_timestamp : Int) (future_data : FutureView)
    (positions : List (Symbol × Position)) (trades : List (Symbol × Trade)) :
    List (Symbol × PnlRow) × List (Symbol × PnlRow) :=
  ((calculate_new_trade_pnl trades future_data).map
      (fun e => (e.1, ⟨timestamp, e.2, 0⟩)),
    (calculate_positional_pnl positions future_data).map
      (fun e => (e.1, ⟨next_timestamp, 0, e.2⟩)))

/-- Append one PnL row to a symbol's table (`pd.concat` onto the
existing `DataFrame`, or a fresh single-row frame for a new symbol). -/
def appendPnlRow (tables : List (Symbol × List PnlRow)) (s : Symbol) (row : PnlRow) :
    List (Symbol × List PnlRow) :=
  match tables with
  | [] => [(s, [row])]
  | e :: rest =>
      if e.1 = s then (e.1, e.2 ++ [row]) :: rest
      else e :: appendPnlRow rest s row

/-- Append a batch of per-symbol rows in order. -/
def appendPnlRows (tables : List (Symbol × List PnlRow))
    (rows : List (Symbol × PnlRow)) : List (Symbol × List PnlRow) :=
  rows.foldl (fun acc e => appendPnlRow acc e.1 e.2) tables

/-- Read a symbol's accumulated PnL table (an absent symbol reads as
the empty table). -/
def tableOf (tables : List (Symbol × List PnlRow)) (s : Symbol) : List PnlRow :=
  match tables with
  | [] => []
  | e :: rest => if e.1 = s then e.2 else tableOf rest s

/-- Association lookup with a default, for string keys
(`CustomDefaultDict` reads of a missing strategy yield an empty map). -/
def strategyLookup {α : Type} (m : List (String × α)) (k : String) (dflt : α) : α :=
  match m with
  | [] => dflt
  | e :: rest => if e.1 = k then e.2 else strategyLookup rest k dflt

/-- Set a strategy's entry, preserving dict insertion order. -/
def strategySet {α : Type} (m : List (String × α)) (k : String) (v : α) :
    List (String × α) :=
  match m with
  | [] => [(k, v)]
  | e :: rest => if e.1 = k then (k, v) :: rest else e :: strategySet rest k v

/-- `PerformanceManager._update_total_pnl` (manager.py lines 471-536):
append the current-timestamp rows unconditionally; append the
next-timestamp rows only when `next_timestamp` is strictly before the
run's end date; then do the same per strategy for every strategy
appearing in either by-strategy map. -/
def update_total_pnl (run_end_date timestamp next_timestamp : Int)
    (future_data : FutureView)
    (positions : List (Symbol × Position))
    (aggregated_positions_by_strategy : List (String × List (Symbol × Position)))
    (trades : List (Symbol × Trade))
    (aggregated_trades_by_strategy : List (String × List (Symbol × Trade)))
    (st : PerfState) : PerfState :=
  let calculated := calculate_pnl timestamp next_timestamp future_data positions trades
  let tables := appendPnlRows st.pnl_by_symbol calculated.1
  let tables :=
    if next_timestamp < run_end_date then appendPnlRows tables calculated.2
    else tables
  let unique_strategies :=
    (aggregated_positions_by_strategy.map Prod.fst
      ++ aggregated_trades_by_strategy.map Prod.fst).dedup
  let byStrategy :=
    unique_strategies.foldl
      (fun acc strategy =>
        let calculatedS := calculate_pnl timestamp next_timestamp future_data
          (strategyLookup aggregated_positions_by_strategy strategy [])
          (strategyLookup aggregated_trades_by_strategy strategy [])
        let stbl := strategyLookup acc strategy []
        let stbl := appendPnlRows stbl calculatedS.1
        let stbl :=
          if next_timestamp < run_end_date then appendPnlRows stbl calculatedS.2
          else stbl
        strategySet acc strategy stbl)
      st.pnl_by_strategy_by_symbol
  ⟨tables, byStrategy⟩

/- ## DataProcessor (`framework/data/processor.py`) -/

/-- A series key: stands for one (asset class, data type, symbol)
triple of the nested default-dict. -/
def SeriesKey : Type := Nat

/-- The rows a single timestamp contributes, one value per series. -/
def DayRows : Type := List (Nat × Rat)

/-- `pandas.DataFrame.tail(n)`: the last `n` rows. -/
def tailRows {α : Type} (n : Nat) (l : List α) : List α :=
  l.drop (l.length - n)

/-- `DataProcessor._update_observed_data` (processor.py lines 114-132)
for one timestamp's rows: append each series' new row onto its
accumulated frame and keep the `lookback` most recent entries (a fresh
series just becomes the single-row frame; `_cast_to_booleans` is a
documented no-op and is omitted). -/
def stepObserved (lookback : Nat) (observed : Nat → List Rat) (rows : DayRows) :
    Nat → List Rat :=
  rows.foldl
    (fun acc kv => fun k =>
      if k = kv.1 then
        if (acc kv.1).isEmpty then [kv.2]
        else tailRows lookback (acc kv.1 ++ [kv.2])
      else acc k)
    observed

/-- The observed-data state after feeding a sequence of daily row
batches into `_update_observed_data`, starting from the empty nested
dict. -/
def observedAfter (lookback : Nat) (days : List DayRows) : Nat → List Rat :=
  days.foldl (stepObserved lookback) (fun _ => [])

/-- One tuple yielded by `DataProcessor.iter_data`.  `live` carries the
current timestamp's raw rows (the open-only projection of
`_build_mock_live_data` keeps exactly one value per series here), and
`future` the precomputed lookahead window for the current timestamp. -/
structure YieldStep where
  timestamp : Int
  next_timestamp : Int
  observed : Nat → List Rat
  live : DayRows
  future : List DayRows

/-- The loop of `DataProcessor.iter_data` (processor.py lines 67-88):
for each interior index `i`, first feed the PREVIOUS timestamp's rows
(`keys[i - 1]`) into the observed-data state, then yield a tuple for
the current timestamp when it falls inside `[run_start_date,
run_end_date)`.  The precomputed future-data map is abstracted as the
function `future` (its computation is a pure preprocessing pass not
touched by the claims below). -/
def iterLoop (lookback : Nat) (run_start_date run_end_date : Int)
    (future : Int → List DayRows) (observed : Nat → List Rat) :
    List (Int × DayRows) → List YieldStep
  | prev :: cur :: next :: rest =>
      let observed' := stepObserved lookback observed prev.2
      let tail := iterLoop lookback run_start_date run_end_date future observed'
        (cur :: next :: rest)
      if run_start_date ≤ cur.1 ∧ cur.1 < run_end_date then
        ⟨cur.1, next.1, observed', cur.2, future cur.1⟩ :: tail
      else tail
  | _ => []

/-- `DataProcessor.iter_data` over the loaded, timestamp-sorted
`data_dict`, starting from an empty observed-data state. -/
def iter_data (lookback : Nat) (run_start_date run_end_date : Int)
    (future : Int → List DayRows) (data_dict : List (Int × DayRows)) :
    List YieldStep :=
  iterLoop lookback run_start_date run_end_date future (fun _ => []) data_dict

/- ## Concrete fixtures used by counterexamples and witnesses -/

/-- The test-suite symbol. -/
def aapl : Symbol := ⟨"AAPL", AssetClass.US_EQUITY⟩

/-- A trade configuration with a 5-second holding period. -/
def cfgFix : TradeConfig :=
  ⟨10000, fun _ => ⟨5, 200⟩⟩

/-- A live view quoting every symbol's open at 1. -/
def liveUnit : LiveOpen := fun _ => 1

/-- An open (long, market-buy) trade of 5 shares placed at timestamp 0. -/
def openTradeFix : Trade := ⟨0, aapl, 5, LimitPrice.posInf, TradeType.SIMPLE_FIXED⟩

/-- Portfolio state holding only `openTradeFix` in the open set. -/
def stFix : PortfolioState := ⟨10000, [], [openTradeFix]⟩

/-- A buy trade whose limit price (0) is below the live price, so the
price/limit check rejects it. -/
def invalidTradeFix : Trade := ⟨0, aapl, 5, LimitPrice.fin 0, TradeType.SIMPLE_FIXED⟩

/-- Portfolio state holding only `invalidTradeFix` in the open set. -/
def stInvalidFix : PortfolioState := ⟨10000, [], [invalidTradeFix]⟩

/-- A three-day single-series data dict with distinct row values. -/
def dataFix : List (Int × DayRows) :=
  [(0, [(0, 10)]), (1, [(0, 20)]), (2, [(0, 30)])]

/-- The step `iter_data` yields on `dataFix` for current timestamp 1. -/
def stepFix : YieldStep :=
  ⟨1, 2, stepObserved 5 (fun _ => []) [(0, 10)], [(0, 20)], []⟩

/-- The future-data window of the test corpus: `Open = 110` for every
forward row, `Close = [120, 130]` at forward indices 0 and 1. -/
def fdFix : FutureView :=
  fun _ => ⟨fun _ => 110, fun i => if i = 0 then 120 else 130⟩

/-- The test-corpus trade: quantity 100 executed at timestamp 1. -/
def tradeC2Fix : Trade := ⟨1, aapl, 100, LimitPrice.posInf, TradeType.SIMPLE_FIXED⟩

/-- The test-corpus position: 110 shares held. -/
def posC3Fix : Position := ⟨aapl, 110, 110⟩

/- ## Supporting lemmas about `bisect_left` and `insort` -/

theorem bisect_left_eq_takeWhile (l : List Int) (x : Int) :
    bisect_left l x = (l.takeWhile (fun y => decide (y < x))).length := by
  induction l with
  | nil => rfl
  | cons y ys ih =>
      by_cases h : y < x
      · simp [bisect_left, h, List.takeWhile, ih]
      · simp [bisect_left, h, List.takeWhile]

theorem bisect_left_append (l₁ l₂ : List Int) (x : Int)
    (h₁ : ∀ y ∈ l₁, y < x)
    (h₂ : ∀ z, l₂.head? = some z → ¬ z < x) :
    bisect_left (l₁ ++ l₂) x = l₁.length := by
  induction l₁ with
  | nil =>
      cases l₂ with
      | nil => rfl
      | cons z zs =>
          have := h₂ z rfl
          simp [bisect_left, this]
  | cons y ys ih =>
      have hy : y < x := h₁ y (by simp)
      simp only [List.cons_append, bisect_left, if_pos hy, List.length_cons]
      rw [show ys.append l₂ = ys ++ l₂ from rfl, ih (fun a ha => h₁ a (by simp [ha]))]

theorem insort_append (l₁ l₂ : List Int) (x : Int)
    (h₁ : ∀ y ∈ l₁, ¬ x < y)
    (h₂ : ∀ z, l₂.head? = some z → x < z) :
    insort (l₁ ++ l₂) x = l₁ ++ x :: l₂ := by
  induction l₁ with
  | nil =>
      cases l₂ with
      | nil => rfl
      | cons z zs =>
          have := h₂ z rfl
          simp [insort, this]
  | cons y ys ih =>
      have hy : ¬ x < y := h₁ y (by simp)
      simp only [List.cons_append, insort, if_neg hy, List.cons.injEq, true_and]
      exact ih (fun a ha => h₁ a (by simp [ha]))

theorem eraseIdx_append_length (l₁ l₂ : List Int) (x : Int) :
    (l₁ ++ x :: l₂).eraseIdx l₁.length = l₁ ++ l₂ := by
  induction l₁ with
  | nil => rfl
  | cons y ys ih => simpa [List.eraseIdx] using ih

theorem head?_dropWhile_false (p : Int → Bool) (l : List Int) :
    ∀ z, (l.dropWhile p).head? = some z → p z = false := by
  induction l with
  | nil => intro z h; simp [List.dropWhile] at h
  | cons y ys ih =>
      intro z h
      by_cases hp : p y
      · exact ih z (by simpa [List.dropWhile, hp] using h)
      · rw [List.dropWhile_cons_of_neg hp] at h
        simp only [List.head?_cons, Option.some.injEq] at h
        simpa [← h] using hp

/- ## Expiry-loop characterization -/

theorem close_expired_foldl (cfg : TradeConfig) (timestamp : Int) (live : LiveOpen)
    (l : List Trade) :
    ∀ (st : PortfolioState) (cl sv : List Trade),
      (l.foldl (closeStep cfg timestamp live) (st, cl, sv)).2.1
          = cl ++ l.filter (fun trade =>
              decide (trade.timestamp
                + (cfg.byAssetClass trade.symbol.asset_class).holding_period ≤ timestamp))
        ∧ (l.foldl (closeStep cfg timestamp live) (st, cl, sv)).2.2
          = sv ++ l.filter (fun trade =>
              !decide (trade.timestamp
                + (cfg.byAssetClass trade.symbol.asset_class).holding_period ≤ timestamp)) := by
  induction l with
  | nil => intro st cl sv; simp
  | cons trade rest ih =>
      intro st cl sv
      by_cases h : trade.timestamp
          + (cfg.byAssetClass trade.symbol.asset_class).holding_period ≤ timestamp
      · have hret : (process_position Action.CLOSE trade live st).2 = trade := by
          unfold process_position
          cases get_trade_details trade live with
          | none => rfl
          | some details => rfl
        have hstep : closeStep cfg timestamp live (st, cl, sv) trade
            = ((process_position Action.CLOSE trade live st).1, cl ++ [trade], sv) := by
          simp [closeStep, h, hret]
        obtain ⟨h1, h2⟩ := ih (process_position Action.CLOSE trade live st).1
          (cl ++ [trade]) sv
        rw [List.foldl_cons, hstep]
        refine ⟨?_, ?_⟩
        · rw [h1]
          simp [List.filter_cons, h]
        · rw [h2]
          simp [List.filter_cons, h]
      · have hstep : closeStep cfg timestamp live (st, cl, sv) trade
            = (st, cl, sv ++ [trade]) := by
          simp [closeStep, h]
        obtain ⟨h1, h2⟩ := ih st cl (sv ++ [trade])
        rw [List.foldl_cons, hstep]
        refine ⟨?_, ?_⟩
        · rw [h1]
          simp [List.filter_cons, h]
        · rw [h2]
          simp [List.filter_cons, h]

/-- C1 (amended): in `execute_trades`, every previously open trade whose
`timestamp + holding_period` is `≤` the current timestamp is removed
from the open set at that first expiring step and is appended — as the
ORIGINAL trade record, with its original (not negated) quantity — to
the returned trade list after the signal-generated trades, while every
not-yet-expired open trade remains in the open set (after the new
trades).  (Only the position/cash update inside `_process_position`
uses the negated quantity; the emitted trade object is unchanged.) -/
theorem execute_trades_expiry_split (cfg : TradeConfig) (timestamp : Int)
    (live : LiveOpen) (signals : List Signal) (weight : Rat) (st : PortfolioState) :
    (execute_trades cfg timestamp live signals weight st).2
        = (open_from_signals cfg timestamp live signals weight st).2
          ++ st.open_trades.filter (fun trade =>
              decide (trade.timestamp
                + (cfg.byAssetClass trade.symbol.asset_class).holding_period ≤ timestamp))
      ∧ (execute_trades cfg timestamp live signals weight st).1.open_trades
        = (open_from_signals cfg timestamp live signals weight st).2
          ++ st.open_trades.filter (fun trade =>
              !decide (trade.timestamp
                + (cfg.byAssetClass trade.symbol.asset_class).holding_period ≤ timestamp)) := by
  rcases close_expired_foldl cfg timestamp live st.open_trades
      (open_from_signals cfg timestamp live signals weight st).1 [] [] with ⟨h1, h2⟩
  constructor
  · show (open_from_signals cfg timestamp live signals weight st).2
        ++ (close_expired cfg timestamp live st.open_trades
            (open_from_signals cfg timestamp live signals weight st).1).2.1 = _
    rw [close_expired, h1, List.nil_append]
  · show (open_from_signals cfg timestamp live signals weight st).2
        ++ (close_expired cfg timestamp live st.open_trades
            (open_from_signals cfg timestamp live signals weight st).1).2.2 = _
    rw [close_expired, h2, List.nil_append]

/-- C1 counterexample: a portfolio holding one open long trade of
quantity 5 (placed at timestamp 0, holding period 5 seconds) processed
at timestamp 10: the trade is expired and force-closed, but the closing
trade appended to the returned list is the original record with
quantity 5, not the negated quantity -5 the claim requires. -/
theorem execute_trades_close_quantity_cex :
    (execute_trades cfgFix 10 liveUnit [] 1 stFix).2 = [openTradeFix]
      ∧ openTradeFix.quantity = 5
      ∧ (execute_trades cfgFix 10 liveUnit [] 1 stFix).2.map Trade.quantity ≠ [-5]
      ∧ (execute_trades cfgFix 10 liveUnit [] 1 stFix).1.open_trades = [] := by
  refine ⟨rfl, rfl, ?_, rfl⟩
  decide

theorem np_sign_pos (x : Int) (hx : 0 < x) : np_sign x = 1 := by
  simp [np_sign, hx]

theorem np_sign_neg (x : Int) (hx : x < 0) : np_sign x = -1 := by
  have : ¬ 0 < x := by omega
  simp [np_sign, this, hx]

/-- C6: when `AggregatedTrades.update_trade` merges an incoming trade
into an existing same-symbol aggregate, quantities of opposite sign
always net-add; quantities of the same sign are added only when the
incoming trade's limit price is `+inf` with positive quantity or
exactly `0` with negative quantity, and otherwise the incoming
quantity is left out of the aggregate. -/
theorem update_trade_netting_rule (agg trade : Trade) :
    ((0 < trade.quantity ∧ agg.quantity < 0) ∨ (trade.quantity < 0 ∧ 0 < agg.quantity) →
      update_trade (some agg) trade
        = .ok ⟨agg.timestamp, agg.symbol, agg.quantity + trade.quantity,
            agg.limit_price, agg.trade_type⟩)
    ∧ (((0 < trade.quantity ∧ 0 < agg.quantity) ∨ (trade.quantity < 0 ∧ agg.quantity < 0))
        ∧ ((trade.limit_price = LimitPrice.posInf ∧ 0 < trade.quantity)
            ∨ (trade.limit_price = LimitPrice.fin 0 ∧ trade.quantity < 0)) →
      update_trade (some agg) trade
        = .ok ⟨agg.timestamp, agg.symbol, agg.quantity + trade.quantity,
            agg.limit_price, agg.trade_type⟩)
    ∧ (((0 < trade.quantity ∧ 0 < agg.quantity) ∨ (trade.quantity < 0 ∧ agg.quantity < 0))
        ∧ ¬ ((trade.limit_price = LimitPrice.posInf ∧ 0 < trade.quantity)
            ∨ (trade.limit_price = LimitPrice.fin 0 ∧ trade.quantity < 0)) →
      update_trade (some agg) trade
        = .ok ⟨agg.timestamp, agg.symbol, agg.quantity,
            agg.limit_price, agg.trade_type⟩) := by
  have htype : ¬ agg.trade_type ≠ trade.trade_type := by
    cases agg.trade_type
    cases trade.trade_type
    simp
  refine ⟨?_, ?_, ?_⟩
  · intro h
    have hne : np_sign trade.quantity ≠ np_sign agg.quantity := by
      rcases h with ⟨h1, h2⟩ | ⟨h1, h2⟩
      · rw [np_sign_pos _ h1, np_sign_neg _ h2]; decide
      · rw [np_sign_neg _ h1, np_sign_pos _ h2]; decide
    simp [update_trade, htype, hne]
  · rintro ⟨hsame, hconv⟩
    have heq : np_sign trade.quantity = np_sign agg.quantity := by
      rcases hsame with ⟨h1, h2⟩ | ⟨h1, h2⟩
      · rw [np_sign_pos _ h1, np_sign_pos _ h2]
      · rw [np_sign_neg _ h1, np_sign_neg _ h2]
    simp [update_trade, htype, heq, hconv]
  · rintro ⟨hsame, hconv⟩
    have heq : np_sign trade.quantity = np_sign agg.quantity := by
      rcases hsame with ⟨h1, h2⟩ | ⟨h1, h2⟩
      · rw [np_sign_pos _ h1, np_sign_pos _ h2]
      · rw [np_sign_neg _ h1, np_sign_neg _ h2]
    simp [update_trade, htype, heq, hconv]

/-- C6 witness: a short aggregate of -3 netted against an incoming
long market-buy of 5 yields quantity 2, keeping the aggregate's own
timestamp and limit price. -/
theorem update_trade_netting_rule_witness :
    update_trade (some ⟨0, aapl, -3, LimitPrice.fin 0, TradeType.SIMPLE_FIXED⟩)
        ⟨7, aapl, 5, LimitPrice.posInf, TradeType.SIMPLE_FIXED⟩
      = .ok ⟨0, aapl, 2, LimitPrice.fin 0, TradeType.SIMPLE_FIXED⟩ := by
  have h := (update_trade_netting_rule
    ⟨0, aapl, -3, LimitPrice.fin 0, TradeType.SIMPLE_FIXED⟩
    ⟨7, aapl, 5, LimitPrice.posInf, TradeType.SIMPLE_FIXED⟩).1 (Or.inl (by constructor <;> decide))
  simpa using h

/-- C7: a trade failing the price/limit validity check produces no
position and no cash change in `_process_position` (for either
action), yet is still returned by `execute_trades` — here exercised
through the expiry path for a portfolio whose open set holds exactly
that trade. -/
theorem invalid_trade_no_state_change (live : LiveOpen) (trade : Trade)
    (hinv : is_valid_trade (live trade.symbol) trade.quantity trade.limit_price = false) :
    (∀ action st, process_position action trade live st = (st, trade))
    ∧ ∀ cfg timestamp st, st.open_trades = [trade] →
        trade.timestamp + (cfg.byAssetClass trade.symbol.asset_class).holding_period
            ≤ timestamp →
        (execute_trades cfg timestamp live [] 1 st).1.open_positions_by_symbol
              = st.open_positions_by_symbol
          ∧ (execute_trades cfg timestamp live [] 1 st).1.cash = st.cash
          ∧ (execute_trades cfg timestamp live [] 1 st).2 = [trade] := by
  have hdet : get_trade_details trade live = none := by
    unfold get_trade_details
    simp [hinv]
  have hpp : ∀ action st, process_position action trade live st = (st, trade) := by
    intro action st
    unfold process_position
    rw [hdet]
  refine ⟨hpp, ?_⟩
  intro cfg timestamp st hopen hexp
  have hsig : open_from_signals cfg timestamp live [] 1 st = (st, []) := rfl
  have hclose : close_expired cfg timestamp live st.open_trades st
      = (st, [trade], []) := by
    rw [hopen]
    show closeStep cfg timestamp live (st, [], []) trade = _
    unfold closeStep
    rw [if_pos hexp, hpp]
    simp
  have hexec : execute_trades cfg timestamp live [] 1 st
      = ({ (close_expired cfg timestamp live st.open_trades st).1 with
            open_trades := [] ++ (close_expired cfg timestamp live st.open_trades st).2.2 },
          [] ++ (close_expired cfg timestamp live st.open_trades st).2.1) := rfl
  rw [hexec, hclose]
  exact ⟨rfl, rfl, rfl⟩

/-- C7 witness: a buy trade with limit price 0 against a live open of 1
fails the check; processing leaves positions/cash unchanged and the
trade is still returned. -/
theorem invalid_trade_no_state_change_witness :
    process_position Action.CLOSE invalidTradeFix liveUnit stInvalidFix
        = (stInvalidFix, invalidTradeFix)
      ∧ (execute_trades cfgFix 10 liveUnit [] 1 stInvalidFix).1.open_positions_by_symbol
          = stInvalidFix.open_positions_by_symbol
      ∧ (execute_trades cfgFix 10 liveUnit [] 1 stInvalidFix).1.cash = stInvalidFix.cash
      ∧ (execute_trades cfgFix 10 liveUnit [] 1 stInvalidFix).2 = [invalidTradeFix] := by
  obtain ⟨h1, h2⟩ := invalid_trade_no_state_change liveUnit invalidTradeFix (by decide)
  obtain ⟨h3, h4, h5⟩ := h2 cfgFix 10 stInvalidFix rfl (by decide)
  exact ⟨h1 Action.CLOSE stInvalidFix, h3, h4, h5⟩

/-- C10: feeding `AggregatedPositions.aggregate` two cross-strategy
position lists whose quantities for the same symbol sum to exactly
zero reaches the unguarded division by `total_quantity` in
`update_position`, so the aggregation raises a division error
(`none`) instead of producing a zero-quantity aggregate position. -/
theorem aggregate_offsetting_positions_none (s : Symbol) (q : Int) (c₁ c₂ : Rat)
    (nameA nameB : String) :
    aggregate_positions [(nameA, [⟨s, q, c₁⟩]), (nameB, [⟨s, -q, c₂⟩])] = none := by
  simp only [aggregate_positions, List.foldl_cons, List.foldl_nil]
  simp [update_position, assocLookup, assocLookup2, assocSet, assocSet2]

/-- C5 counterexample: on the calendar `[1, 2, 3]` with query `t = 2`
— a member of the calendar — `nearest(t, "after")` returns `2` itself,
which is not strictly later than `t` as the claim requires. -/
theorem nearest_after_member_cex :
    nearest [1, 2, 3] 2 Direction.after = .ok 2 ∧ ¬ ((2 : Int) < 2) := by
  exact ⟨rfl, by decide⟩

/-- C5 (amended): for a sorted calendar, `nearest(t, "before")` returns
a calendar timestamp strictly earlier than `t` (raising an error when
none exists), while `nearest(t, "after")` returns the FIRST calendar
timestamp greater than or equal to `t` (raising when none exists): so
whenever both succeed, `before < t ≤ after`, and when `t` itself is a
member of the calendar the "after" result is `t`, not a strictly later
timestamp. -/
theorem nearest_before_after_bounds (l : List Int) (t b a : Int)
    (hs : l.Pairwise (· < ·))
    (hb : nearest l t Direction.before = .ok b)
    (ha : nearest l t Direction.after = .ok a) :
    b ∈ l ∧ a ∈ l ∧ b < t ∧ t ≤ a ∧ (t ∈ l → a = t) := by
  have hidx : bisect_left l t = (l.takeWhile (fun y => decide (y < t))).length :=
    bisect_left_eq_takeWhile l t
  have hsplit : l.takeWhile (fun y => decide (y < t))
      ++ l.dropWhile (fun y => decide (y < t)) = l :=
    List.takeWhile_append_dropWhile (fun y => decide (y < t)) l
  by_cases h0 : bisect_left l t = 0
  · simp [nearest, h0] at hb
  cases hgetb : l[bisect_left l t - 1]? with
  | none => simp [nearest, h0, hgetb] at hb
  | some v =>
      have hvb : v = b := by simpa [nearest, h0, hgetb] using hb
      by_cases hL : bisect_left l t = l.length
      · simp [nearest, hL] at ha
      cases hgeta : l[bisect_left l t]? with
      | none => simp [nearest, hL, hgeta] at ha
      | some w =>
          have hwa : w = a := by simpa [nearest, hL, hgeta] using ha
          have hlt1 : bisect_left l t - 1
              < (l.takeWhile (fun y => decide (y < t))).length := by omega
          have hbtw : (l.takeWhile (fun y => decide (y < t))
                ++ l.dropWhile (fun y => decide (y < t)))[bisect_left l t - 1]?
              = (l.takeWhile (fun y => decide (y < t)))[bisect_left l t - 1]? :=
            List.getElem?_append_left hlt1
          rw [hsplit] at hbtw
          have hbmem_tw : v ∈ l.takeWhile (fun y => decide (y < t)) := by
            have h1 : (l.takeWhile (fun y => decide (y < t)))[bisect_left l t - 1]?
                = some v := by rw [← hbtw]; exact hgetb
            obtain ⟨hlt, he⟩ := List.getElem?_eq_some_iff.mp h1
            exact he ▸ (l.takeWhile (fun y => decide (y < t))).getElem_mem hlt
          have hblt : v < t := by
            have h2 := List.mem_takeWhile_imp hbmem_tw
            simpa using h2
          have hbmem : v ∈ l := (List.takeWhile_sublist _).mem hbmem_tw
          have hge : (l.takeWhile (fun y => decide (y < t))).length
              ≤ bisect_left l t := by omega
          have haft : (l.takeWhile (fun y => decide (y < t))
                ++ l.dropWhile (fun y => decide (y < t)))[bisect_left l t]?
              = (l.dropWhile (fun y => decide (y < t)))[bisect_left l t
                  - (l.takeWhile (fun y => decide (y < t))).length]? :=
            List.getElem?_append_right hge
          rw [hsplit] at haft
          have hzero : bisect_left l t
              - (l.takeWhile (fun y => decide (y < t))).length = 0 := by omega
          rw [hzero] at haft
          have hhead : (l.dropWhile (fun y => decide (y < t))).head? = some w := by
            rw [List.head?_eq_getElem?, ← haft]
            exact hgeta
          have hafalse : decide (w < t) = false :=
            head?_dropWhile_false _ l w hhead
          have hta : t ≤ w := by
            have : ¬ w < t := by simpa using hafalse
            omega
          obtain ⟨zs, hdw⟩ : ∃ zs, l.dropWhile (fun y => decide (y < t)) = w :: zs := by
            cases hcase : l.dropWhile (fun y => decide (y < t)) with
            | nil => rw [hcase] at hhead; simp at hhead
            | cons z zrest =>
                rw [hcase] at hhead
                simp only [List.head?_cons, Option.some.injEq] at hhead
                exact ⟨zrest, by rw [hhead]⟩

          have hamem : w ∈ l := by
            have : w ∈ l.dropWhile (fun y => decide (y < t)) := by
              rw [hdw]; exact List.mem_cons_self w zs
            exact (List.dropWhile_sublist _).mem this
          refine ⟨hvb ▸ hbmem, hwa ▸ hamem, hvb ▸ hblt, hwa ▸ hta, ?_⟩
          intro ht
          have htdw : t ∈ l.dropWhile (fun y => decide (y < t)) := by
            rw [← hsplit] at ht
            rcases List.mem_append.mp ht with h | h
            · have h2 := List.mem_takeWhile_imp h
              simp at h2
            · exact h
          rw [hdw] at htdw
          rcases List.mem_cons.mp htdw with h | h
          · rw [← hwa, h]
          · have hpdw : (l.dropWhile (fun y => decide (y < t))).Pairwise (· < ·) :=
              hs.sublist (List.dropWhile_sublist _)
            rw [hdw] at hpdw
            have hwlt : w < t := (List.pairwise_cons.mp hpdw).1 t h
            omega

/-- C5 witness: on the calendar `[1, 2, 3]` with query 2,
`nearest "before"` returns 1 and `nearest "after"` returns 2, and the
amended bounds hold. -/
theorem nearest_before_after_bounds_witness :
    (1 : Int) ∈ [1, 2, 3] ∧ (2 : Int) ∈ [1, 2, 3] ∧ (1 : Int) < 2 ∧ (2 : Int) ≤ 2
      ∧ ((2 : Int) ∈ [1, 2, 3] → (2 : Int) = 2) :=
  nearest_before_after_bounds [1, 2, 3] 2 1 2 (by decide) rfl rfl

/-- C8 counterexample: on the calendar `[1, 2, 3]`, the member `1`
can be removed, but re-adding the identical value is rejected because
`add_timestamp` refuses insertions at the edges of the calendar — so
remove-then-add does not restore the original sequence for boundary
members. -/
theorem remove_add_edge_cex :
    remove_timestamp [1, 2, 3] 1 = .ok [2, 3]
      ∧ add_timestamp [2, 3] 1
        = .error "Adding this timestamp is not supported at the edges of the calendar." := by
  exact ⟨rfl, rfl⟩

/-- C8 (amended): for every sorted calendar and every INTERIOR member
`t` (one having both an earlier and a later neighbour) whose two
neighbouring gaps are equal — in particular every interior member of a
uniformly spaced calendar — `remove_timestamp` followed by
`add_timestamp` with the identical value succeeds and restores the
original sorted sequence exactly; at the first or last member the
re-insertion is rejected as an edge insertion. -/
theorem remove_add_interior_roundtrip (l₁ l₂ : List Int) (x t y : Int)
    (hs : (l₁ ++ x :: t :: y :: l₂).Pairwise (· < ·))
    (hgap : y - t = t - x) :
    remove_timestamp (l₁ ++ x :: t :: y :: l₂) t = .ok (l₁ ++ x :: y :: l₂)
      ∧ add_timestamp (l₁ ++ x :: y :: l₂) t = .ok (l₁ ++ x :: t :: y :: l₂) := by
  have hp := List.pairwise_append.mp hs
  have hxt : x < t := by
    have := (List.pairwise_cons.mp hp.2.1).1
    exact this t (by simp)
  have hty : t < y := by
    have h1 := List.pairwise_cons.mp hp.2.1
    have h2 := List.pairwise_cons.mp h1.2
    exact h2.1 y (by simp)
  have hl1t : ∀ z ∈ l₁ ++ [x], z < t := by
    intro z hz
    rcases List.mem_append.mp hz with h | h
    · have : z < x := hp.2.2 z h x (by simp)
      omega
    · simp at h; omega
  have hassoc1 : (l₁ ++ [x]) ++ t :: y :: l₂ = l₁ ++ x :: t :: y :: l₂ := by simp
  have hidx1 : bisect_left (l₁ ++ x :: t :: y :: l₂) t = l₁.length + 1 := by
    rw [← hassoc1, bisect_left_append (l₁ ++ [x]) (t :: y :: l₂) t hl1t ?_]
    · simp
    · intro z hz
      simp only [List.head?_cons, Option.some.injEq] at hz
      omega
  have hget1 : (l₁ ++ x :: t :: y :: l₂)[l₁.length + 1]? = some t := by
    rw [← hassoc1,
      List.getElem?_append_right (by simp)]
    simp
  have herase : (l₁ ++ x :: t :: y :: l₂).eraseIdx (l₁.length + 1)
      = l₁ ++ x :: y :: l₂ := by
    have h1 : l₁.length + 1 = (l₁ ++ [x]).length := by simp
    rw [← hassoc1, h1, eraseIdx_append_length]
    simp
  have hremove : remove_timestamp (l₁ ++ x :: t :: y :: l₂) t
      = .ok (l₁ ++ x :: y :: l₂) := by
    simp [remove_timestamp, hidx1, hget1, herase]
  have hassoc2 : (l₁ ++ [x]) ++ y :: l₂ = l₁ ++ x :: y :: l₂ := by simp
  have hidx2 : bisect_left (l₁ ++ x :: y :: l₂) t = l₁.length + 1 := by
    rw [← hassoc2, bisect_left_append (l₁ ++ [x]) (y :: l₂) t hl1t ?_]
    · simp
    · intro z hz
      simp only [List.head?_cons, Option.some.injEq] at hz
      omega
  have hlen2 : l₁.length + 1 < (l₁ ++ x :: y :: l₂).length := by
    simp [List.length_append]
  have hgethi : (l₁ ++ x :: y :: l₂)[l₁.length + 1]? = some y := by
    rw [← hassoc2, List.getElem?_append_right (by simp)]
    simp
  have hgetlo : (l₁ ++ x :: y :: l₂)[l₁.length]? = some x := by
    rw [← hassoc2, List.getElem?_append_left (by simp)]
    rw [List.getElem?_append_right (le_refl l₁.length)]
    simp
  have hinsort : insort (l₁ ++ x :: y :: l₂) t = l₁ ++ x :: t :: y :: l₂ := by
    rw [← hassoc2, insort_append (l₁ ++ [x]) (y :: l₂) t ?_ ?_]
    · simp
    · intro z hz
      have : z < t := hl1t z hz
      omega
    · intro z hz
      simp only [List.head?_cons, Option.some.injEq] at hz
      omega
  have hadd : add_timestamp (l₁ ++ x :: y :: l₂) t
      = .ok (l₁ ++ x :: t :: y :: l₂) := by
    simp [add_timestamp, hidx2, hlen2, hgethi, hgetlo, hgap, hinsort]
  exact ⟨hremove, hadd⟩

/-- C8 witness: on the calendar `[1, 2, 3]` with interior member 2,
removal then re-addition restores the sequence. -/
theorem remove_add_interior_roundtrip_witness :
    remove_timestamp [1, 2, 3] 2 = .ok [1, 3]
      ∧ add_timestamp [1, 3] 2 = .ok [1, 2, 3] := by
  have h := remove_add_interior_roundtrip [] [] 1 2 3 (by decide) (by decide)
  simpa using h

/-- C9: for a query lying strictly between two adjacent calendar
timestamps, `nearest(t, "nearest")` returns the later candidate
exactly when its distance to `t` is strictly smaller than the earlier
candidate's, and the earlier candidate otherwise — in particular an
exact-midpoint tie resolves to the earlier timestamp. -/
theorem nearest_tie_break_earlier (l₁ l₂ : List Int) (b a t : Int)
    (hs : (l₁ ++ b :: a :: l₂).Pairwise (· < ·))
    (hbt : b < t) (hta : t < a) :
    nearest (l₁ ++ b :: a :: l₂) t Direction.nearest
      = .ok (if a - t < t - b then a else b) := by
  have hp := List.pairwise_append.mp hs
  have hl1t : ∀ z ∈ l₁ ++ [b], z < t := by
    intro z hz
    rcases List.mem_append.mp hz with h | h
    · have : z < b := hp.2.2 z h b (by simp)
      omega
    · simp at h; omega
  have hassoc : (l₁ ++ [b]) ++ a :: l₂ = l₁ ++ b :: a :: l₂ := by simp
  have hidx : bisect_left (l₁ ++ b :: a :: l₂) t = l₁.length + 1 := by
    rw [← hassoc, bisect_left_append (l₁ ++ [b]) (a :: l₂) t hl1t ?_]
    · simp
    · intro z hz
      simp only [List.head?_cons, Option.some.injEq] at hz
      omega
  have hne0 : l₁.length + 1 ≠ 0 := by omega
  have hneL : l₁.length + 1 ≠ (l₁ ++ b :: a :: l₂).length := by
    simp [List.length_append]
  have hgetb : (l₁ ++ b :: a :: l₂)[l₁.length]? = some b := by
    rw [← hassoc, List.getElem?_append_left (by simp)]
    rw [List.getElem?_append_right (le_refl l₁.length)]
    simp
  have hgeta : (l₁ ++ b :: a :: l₂)[l₁.length + 1]? = some a := by
    rw [← hassoc, List.getElem?_append_right (by simp)]
    simp
  have hsub : l₁.length + 1 - 1 = l₁.length := by omega
  simp only [nearest, hidx, hsub]
  rw [if_neg hne0, if_neg hneL, hgetb, hgeta]
  exact (apply_ite Except.ok (a - t < t - b) a b).symm

/-- C9 witness: the exact midpoint 5 between calendar timestamps 0 and
10 resolves to the earlier timestamp 0. -/
theorem nearest_tie_break_earlier_witness :
    nearest [0, 10] 5 Direction.nearest = .ok 0 := by
  have h := nearest_tie_break_earlier [] [] 0 10 5 (by decide) (by decide) (by decide)
  simpa using h

/- ## PnL table bookkeeping lemmas -/

theorem tableOf_appendPnlRow (tables : List (Symbol × List PnlRow))
    (s' : Symbol) (row : PnlRow) (s : Symbol) :
    tableOf (appendPnlRow tables s' row) s
      = if s = s' then tableOf tables s ++ [row] else tableOf tables s := by
  induction tables with
  | nil =>
      by_cases h : s = s'
      · simp [appendPnlRow, tableOf, h]
      · have h2 : ¬ s' = s := fun hh => h hh.symm
        simp [appendPnlRow, tableOf, h, h2]
  | cons e rest ih =>
      by_cases he : e.1 = s'
      · by_cases hss : s = s'
        · have he1s : e.1 = s := he.trans hss.symm
          simp [tableOf, appendPnlRow, he, hss, he1s]
        · have he1s : ¬ e.1 = s := fun hh => hss (hh.symm.trans he)
          have hss2 : ¬ s' = s := fun hh => hss hh.symm
          simp [tableOf, appendPnlRow, he, hss, he1s, hss2]
      · by_cases he2 : e.1 = s
        · have hss : ¬ s = s' := fun hh => he (he2.trans hh)
          simp [tableOf, appendPnlRow, he, he2, hss]
        · simp [tableOf, appendPnlRow, he, he2, ih]

theorem tableOf_appendPnlRows_not_mem (rows : List (Symbol × PnlRow)) :
    ∀ (tables : List (Symbol × List PnlRow)) (s : Symbol),
      s ∉ rows.map Prod.fst →
      tableOf (appendPnlRows tables rows) s = tableOf tables s := by
  induction rows with
  | nil => intro tables s _; rfl
  | cons e rest ih =>
      intro tables s hs
      have hne : s ≠ e.1 := by
        intro hh
        exact hs (by simp [hh])
      have hrest : s ∉ rest.map Prod.fst := by
        intro hh
        exact hs (by simp [hh])
      show tableOf (appendPnlRows (appendPnlRow tables e.1 e.2) rest) s = _
      rw [ih (appendPnlRow tables e.1 e.2) s hrest, tableOf_appendPnlRow,
        if_neg hne]

theorem tableOf_appendPnlRows_mem (rows : List (Symbol × PnlRow)) :
    ∀ (tables : List (Symbol × List PnlRow)) (s : Symbol) (row : PnlRow),
      (rows.map Prod.fst).Nodup → (s, row) ∈ rows →
      tableOf (appendPnlRows tables rows) s = tableOf tables s ++ [row] := by
  induction rows with
  | nil => intro tables s row _ hmem; simp at hmem
  | cons e rest ih =>
      intro tables s row hnodup hmem
      have hmap : (e.1 :: rest.map Prod.fst).Nodup := by simpa using hnodup
      have hcons := List.nodup_cons.mp hmap
      rcases List.mem_cons.mp hmem with h | h
      · have he : e = (s, row) := h.symm
        have hs : s ∉ rest.map Prod.fst := by
          have h1 := hcons.1
          rw [he] at h1
          exact h1
        show tableOf (appendPnlRows (appendPnlRow tables e.1 e.2) rest) s = _
        rw [tableOf_appendPnlRows_not_mem rest _ s hs, he, tableOf_appendPnlRow,
          if_pos rfl]
      · have hne : s ≠ e.1 := by
          intro hh
          have he1 : e.1 ∈ rest.map Prod.fst :=
            hh ▸ (List.mem_map_of_mem Prod.fst h)
          exact hcons.1 he1
        show tableOf (appendPnlRows (appendPnlRow tables e.1 e.2) rest) s = _
        rw [ih (appendPnlRow tables e.1 e.2) s row hcons.2 h, tableOf_appendPnlRow,
          if_neg hne]

theorem strategyLookup_strategySet {α : Type} (m : List (String × α))
    (k : String) (v : α) (k' : String) (dflt : α) :
    strategyLookup (strategySet m k v) k' dflt
      = if k' = k then v else strategyLookup m k' dflt := by
  induction m with
  | nil =>
      by_cases h : k' = k
      · simp [strategySet, strategyLookup, h]
      · have h2 : ¬ k = k' := fun hh => h hh.symm
        simp [strategySet, strategyLookup, h, h2]
  | cons e rest ih =>
      by_cases he : e.1 = k
      · by_cases hk : k' = k
        · simp [strategySet, strategyLookup, he, hk]
        · have he1k : ¬ e.1 = k' := fun hh => hk (hh.symm.trans he)
          have hk2 : ¬ k = k' := fun hh => hk hh.symm
          simp [strategySet, strategyLookup, he, hk, he1k, hk2]
      · by_cases he2 : e.1 = k'
        · have hk : ¬ k' = k := fun hh => he (he2.trans hh)
          simp [strategySet, strategyLookup, he, he2, hk]
        · simp [strategySet, strategyLookup, he, he2, ih]

theorem strategyLookup_ne_default_mem {α : Type}
    (m : List (String × List α)) (k : String) :
    strategyLookup m k [] ≠ [] → k ∈ m.map Prod.fst := by
  induction m with
  | nil => intro h; simp [strategyLookup] at h
  | cons e rest ih =>
      intro h
      by_cases he : e.1 = k
      · simp [he]
      · rw [strategyLookup, if_neg he] at h
        simp [ih h]

theorem foldl_strategySet_lookup_not_mem
    (F : String → List (Symbol × List PnlRow) → List (Symbol × List PnlRow)) :
    ∀ (strats : List String) (acc : List (String × List (Symbol × List PnlRow)))
      (σ : String), σ ∉ strats →
      strategyLookup
          (strats.foldl
            (fun acc2 s2 => strategySet acc2 s2 (F s2 (strategyLookup acc2 s2 []))) acc)
          σ []
        = strategyLookup acc σ [] := by
  intro strats
  induction strats with
  | nil => intro acc σ _; rfl
  | cons s2 rest ih =>
      intro acc σ hσ
      have h1 : σ ≠ s2 := by intro hh; exact hσ (by simp [hh])
      have h2 : σ ∉ rest := fun hh => hσ (by simp [hh])
      rw [List.foldl_cons, ih _ σ h2, strategyLookup_strategySet, if_neg h1]

theorem foldl_strategySet_lookup_mem
    (F : String → List (Symbol × List PnlRow) → List (Symbol × List PnlRow)) :
    ∀ (strats : List String) (acc : List (String × List (Symbol × List PnlRow)))
      (σ : String), strats.Nodup → σ ∈ strats →
      strategyLookup
          (strats.foldl
            (fun acc2 s2 => strategySet acc2 s2 (F s2 (strategyLookup acc2 s2 []))) acc)
          σ []
        = F σ (strategyLookup acc σ []) := by
  intro strats
  induction strats with
  | nil => intro acc σ _ hmem; simp at hmem
  | cons s2 rest ih =>
      intro acc σ hnodup hmem
      have hcons := List.nodup_cons.mp hnodup
      rcases List.mem_cons.mp hmem with h | h
      · rw [List.foldl_cons,
          foldl_strategySet_lookup_not_mem F rest _ σ (h ▸ hcons.1),
          strategyLookup_strategySet, if_pos h, h]
      · have hne : σ ≠ s2 := fun hh => hcons.1 (hh ▸ h)
        rw [List.foldl_cons, ih _ σ hcons.2 h, strategyLookup_strategySet,
          if_neg hne]

theorem calculate_pnl_fst (timestamp next_timestamp : Int)
    (future_data : FutureView) (positions : List (Symbol × Position))
    (trades : List (Symbol × Trade)) :
    (calculate_pnl timestamp next_timestamp future_data positions trades).1
      = trades.map (fun e =>
          (e.1, ⟨timestamp,
            ((future_data e.1).closeCol 0 - (future_data e.1).openCol 0)
              * (e.2.quantity : Rat), 0⟩)) := by
  rw [calculate_pnl, calculate_new_trade_pnl, List.map_map]
  rfl

theorem calculate_pnl_snd (timestamp next_timestamp : Int)
    (future_data : FutureView) (positions : List (Symbol × Position))
    (trades : List (Symbol × Trade)) :
    (calculate_pnl timestamp next_timestamp future_data positions trades).2
      = positions.map (fun e =>
          (e.1, ⟨next_timestamp, 0,
            ((future_data e.1).closeCol 1 - (future_data e.1).closeCol 0)
              * (e.2.quantity : Rat)⟩)) := by
  rw [calculate_pnl, calculate_positional_pnl, List.map_map]
  rfl

theorem tableOf_trade_only (run_end_date timestamp next_timestamp : Int)
    (future_data : FutureView) (positions : List (Symbol × Position))
    (trades : List (Symbol × Trade)) (tbl : List (Symbol × List PnlRow))
    (s : Symbol) (tr : Trade)
    (hmem : (s, tr) ∈ trades) (hnodup : (trades.map Prod.fst).Nodup)
    (hnopos : s ∉ positions.map Prod.fst) :
    tableOf (if next_timestamp < run_end_date
        then appendPnlRows
          (appendPnlRows tbl
            (calculate_pnl timestamp next_timestamp future_data positions trades).1)
          (calculate_pnl timestamp next_timestamp future_data positions trades).2
        else appendPnlRows tbl
          (calculate_pnl timestamp next_timestamp future_data positions trades).1) s
      = tableOf tbl s
        ++ [⟨timestamp,
            ((future_data s).closeCol 0 - (future_data s).openCol 0)
              * (tr.quantity : Rat), 0⟩] := by
  have hkeys1 : ((calculate_pnl timestamp next_timestamp future_data
      positions trades).1.map Prod.fst).Nodup := by
    rw [calculate_pnl_fst, List.map_map]
    exact hnodup
  have hkeys2 : s ∉ (calculate_pnl timestamp next_timestamp future_data
      positions trades).2.map Prod.fst := by
    rw [calculate_pnl_snd, List.map_map]
    exact hnopos
  have hrowmem : (s, (⟨timestamp,
      ((future_data s).closeCol 0 - (future_data s).openCol 0)
        * (tr.quantity : Rat), 0⟩ : PnlRow))
      ∈ (calculate_pnl timestamp next_timestamp future_data positions trades).1 := by
    rw [calculate_pnl_fst]
    exact List.mem_map_of_mem _ hmem
  by_cases hg : next_timestamp < run_end_date
  · rw [if_pos hg, tableOf_appendPnlRows_not_mem _ _ s hkeys2,
      tableOf_appendPnlRows_mem _ _ s _ hkeys1 hrowmem]
  · rw [if_neg hg, tableOf_appendPnlRows_mem _ _ s _ hkeys1 hrowmem]

theorem tableOf_trade_and_position (run_end_date timestamp next_timestamp : Int)
    (future_data : FutureView) (positions : List (Symbol × Position))
    (trades : List (Symbol × Trade)) (tbl : List (Symbol × List PnlRow))
    (s : Symbol) (tr : Trade) (p : Position)
    (hmem_t : (s, tr) ∈ trades) (hnodup_t : (trades.map Prod.fst).Nodup)
    (hmem_p : (s, p) ∈ positions) (hnodup_p : (positions.map Prod.fst).Nodup) :
    tableOf (if next_timestamp < run_end_date
        then appendPnlRows
          (appendPnlRows tbl
            (calculate_pnl timestamp next_timestamp future_data positions trades).1)
          (calculate_pnl timestamp next_timestamp future_data positions trades).2
        else appendPnlRows tbl
          (calculate_pnl timestamp next_timestamp future_data positions trades).1) s
      = tableOf tbl s
        ++ [⟨timestamp,
            ((future_data s).closeCol 0 - (future_data s).openCol 0)
              * (tr.quantity : Rat), 0⟩]
        ++ (if next_timestamp < run_end_date
            then [⟨next_timestamp, 0,
              ((future_data s).closeCol 1 - (future_data s).closeCol 0)
                * (p.quantity : Rat)⟩]
            else []) := by
  have hkeys1 : ((calculate_pnl timestamp next_timestamp future_data
      positions trades).1.map Prod.fst).Nodup := by
    rw [calculate_pnl_fst, List.map_map]
    exact hnodup_t
  have hkeys2 : ((calculate_pnl timestamp next_timestamp future_data
      positions trades).2.map Prod.fst).Nodup := by
    rw [calculate_pnl_snd, List.map_map]
    exact hnodup_p
  have hrowmem_t : (s, (⟨timestamp,
      ((future_data s).closeCol 0 - (future_data s).openCol 0)
        * (tr.quantity : Rat), 0⟩ : PnlRow))
      ∈ (calculate_pnl timestamp next_timestamp future_data positions trades).1 := by
    rw [calculate_pnl_fst]
    exact List.mem_map_of_mem _ hmem_t
  have hrowmem_p : (s, (⟨next_timestamp, 0,
      ((future_data s).closeCol 1 - (future_data s).closeCol 0)
        * (p.quantity : Rat)⟩ : PnlRow))
      ∈ (calculate_pnl timestamp next_timestamp future_data positions trades).2 := by
    rw [calculate_pnl_snd]
    exact List.mem_map_of_mem _ hmem_p
  by_cases hg : next_timestamp < run_end_date
  · rw [if_pos hg, if_pos hg,
      tableOf_appendPnlRows_mem _ _ s _ hkeys2 hrowmem_p,
      tableOf_appendPnlRows_mem _ _ s _ hkeys1 hrowmem_t]
  · rw [if_neg hg, if_neg hg,
      tableOf_appendPnlRows_mem _ _ s _ hkeys1 hrowmem_t, List.append_nil]

/-- C2: for every symbol with an entry in the aggregated-trades map at
a step — whether or not that symbol also has an entry in the
aggregated-positions map at the same step, the engine's normal case —
the new-trade PnL row recorded for that symbol in the per-symbol table
by `_update_total_pnl` equals (first future-data entry's `Close` minus
first future-data entry's `Open`) times the aggregated trade quantity,
attributed to the current timestamp.  When the symbol is also held,
the guarded next-timestamp positional row follows it. -/
theorem new_trade_pnl_recorded (run_end_date timestamp next_timestamp : Int)
    (future_data : FutureView)
    (positions : List (Symbol × Position))
    (pbs : List (String × List (Symbol × Position)))
    (trades : List (Symbol × Trade))
    (tbs : List (String × List (Symbol × Trade)))
    (st : PerfState) (s : Symbol) (tr : Trade)
    (hmem : (s, tr) ∈ trades)
    (hnodup : (trades.map Prod.fst).Nodup)
    (hnodup_p : (positions.map Prod.fst).Nodup) :
    (s ∉ positions.map Prod.fst →
      tableOf (update_total_pnl run_end_date timestamp next_timestamp future_data
          positions pbs trades tbs st).pnl_by_symbol s
        = tableOf st.pnl_by_symbol s
          ++ [⟨timestamp,
              ((future_data s).closeCol 0 - (future_data s).openCol 0)
                * (tr.quantity : Rat), 0⟩])
    ∧ (∀ p : Position, (s, p) ∈ positions →
      tableOf (update_total_pnl run_end_date timestamp next_timestamp future_data
          positions pbs trades tbs st).pnl_by_symbol s
        = tableOf st.pnl_by_symbol s
          ++ [⟨timestamp,
              ((future_data s).closeCol 0 - (future_data s).openCol 0)
                * (tr.quantity : Rat), 0⟩]
          ++ (if next_timestamp < run_end_date
              then [⟨next_timestamp, 0,
                ((future_data s).closeCol 1 - (future_data s).closeCol 0)
                  * (p.quantity : Rat)⟩]
              else [])) := by
  have hout : (update_total_pnl run_end_date timestamp next_timestamp future_data
        positions pbs trades tbs st).pnl_by_symbol
      = (if next_timestamp < run_end_date
         then appendPnlRows
            (appendPnlRows st.pnl_by_symbol
              (calculate_pnl timestamp next_timestamp future_data positions trades).1)
            (calculate_pnl timestamp next_timestamp future_data positions trades).2
         else appendPnlRows st.pnl_by_symbol
            (calculate_pnl timestamp next_timestamp future_data positions trades).1) := rfl
  constructor
  · intro hnopos
    rw [hout]
    exact tableOf_trade_only run_end_date timestamp next_timestamp future_data
      positions trades st.pnl_by_symbol s tr hmem hnodup hnopos
  · intro p hp
    rw [hout]
    exact tableOf_trade_and_position run_end_date timestamp next_timestamp future_data
      positions trades st.pnl_by_symbol s tr p hmem hnodup hp hnodup_p

/-- C2 witness: the spec's test-corpus scenario with the trade and the
position in the SAME step — a trade of quantity 100 at timestamp 1
with future `Open = 110`, `Close = [120, 130]`, while 110 shares of the
same symbol are held: the table gains the NewTrade row
(120 − 110) × 100 = 1000 at timestamp 1, followed by the positional
row at timestamp 2. -/
theorem new_trade_pnl_recorded_witness :
    tableOf (update_total_pnl 100 1 2 fdFix [(aapl, posC3Fix)] []
        [(aapl, tradeC2Fix)] [] ⟨[], []⟩).pnl_by_symbol aapl
      = [⟨1, 1000, 0⟩, ⟨2, 0, 1100⟩] := by
  have h := (new_trade_pnl_recorded 100 1 2 fdFix [(aapl, posC3Fix)] []
    [(aapl, tradeC2Fix)] [] ⟨[], []⟩ aapl tradeC2Fix
    (by simp) (by simp) (by simp)).2 posC3Fix (by simp)
  rw [h]
  norm_num [tableOf, fdFix, tradeC2Fix, posC3Fix]

theorem tableOf_guarded_append (run_end_date timestamp next_timestamp : Int)
    (future_data : FutureView) (positions : List (Symbol × Position))
    (trades : List (Symbol × Trade)) (tbl : List (Symbol × List PnlRow))
    (s : Symbol) (p : Position)
    (hmem : (s, p) ∈ positions) (hnodup : (positions.map Prod.fst).Nodup)
    (hnotr : s ∉ trades.map Prod.fst) :
    tableOf (if next_timestamp < run_end_date
        then appendPnlRows
          (appendPnlRows tbl
            (calculate_pnl timestamp next_timestamp future_data positions trades).1)
          (calculate_pnl timestamp next_timestamp future_data positions trades).2
        else appendPnlRows tbl
          (calculate_pnl timestamp next_timestamp future_data positions trades).1) s
      = tableOf tbl s
        ++ (if next_timestamp < run_end_date
            then [⟨next_timestamp, 0,
              ((future_data s).closeCol 1 - (future_data s).closeCol 0)
                * (p.quantity : Rat)⟩]
            else []) := by
  have hkeys1 : s ∉ (calculate_pnl timestamp next_timestamp future_data
      positions trades).1.map Prod.fst := by
    rw [calculate_pnl_fst, List.map_map]
    exact hnotr
  have hkeys2 : ((calculate_pnl timestamp next_timestamp future_data
      positions trades).2.map Prod.fst).Nodup := by
    rw [calculate_pnl_snd, List.map_map]
    exact hnodup
  have hrowmem : (s, (⟨next_timestamp, 0,
      ((future_data s).closeCol 1 - (future_data s).closeCol 0)
        * (p.quantity : Rat)⟩ : PnlRow))
      ∈ (calculate_pnl timestamp next_timestamp future_data positions trades).2 := by
    rw [calculate_pnl_snd]
    exact List.mem_map_of_mem _ hmem
  by_cases hg : next_timestamp < run_end_date
  · rw [if_pos hg, if_pos hg,
      tableOf_appendPnlRows_mem _ _ s _ hkeys2 hrowmem,
      tableOf_appendPnlRows_not_mem _ _ s hkeys1]
  · rw [if_neg hg, if_neg hg,
      tableOf_appendPnlRows_not_mem _ _ s hkeys1, List.append_nil]

/-- C3: for every symbol with an entry in the aggregated-positions map
at a step — whether or not that symbol was also traded the same step,
the typical case for a newly opened position — the positional PnL row
recorded for that symbol equals (future-data `Close` at index 1 minus
`Close` at index 0) times the held quantity, attributed to the next
timestamp; and this next-timestamp row is appended to the per-symbol
table and to the per-strategy tables only when the next timestamp is
strictly before the run's end date.  When the symbol was also traded,
the positional row follows that trade's current-timestamp row. -/
theorem positional_pnl_recorded_guarded (run_end_date timestamp next_timestamp : Int)
    (future_data : FutureView)
    (positions : List (Symbol × Position))
    (pbs : List (String × List (Symbol × Position)))
    (trades : List (Symbol × Trade))
    (tbs : List (String × List (Symbol × Trade)))
    (st : PerfState) (s : Symbol) (p : Position)
    (hmem : (s, p) ∈ positions)
    (hnodup : (positions.map Prod.fst).Nodup)
    (hnodup_t : (trades.map Prod.fst).Nodup) :
    ((s ∉ trades.map Prod.fst →
        tableOf (update_total_pnl run_end_date timestamp next_timestamp future_data
            positions pbs trades tbs st).pnl_by_symbol s
          = tableOf st.pnl_by_symbol s
            ++ (if next_timestamp < run_end_date
                then [⟨next_timestamp, 0,
                  ((future_data s).closeCol 1 - (future_data s).closeCol 0)
                    * (p.quantity : Rat)⟩]
                else []))
      ∧ ∀ tr : Trade, (s, tr) ∈ trades →
        tableOf (update_total_pnl run_end_date timestamp next_timestamp future_data
            positions pbs trades tbs st).pnl_by_symbol s
          = tableOf st.pnl_by_symbol s
            ++ [⟨timestamp,
                ((future_data s).closeCol 0 - (future_data s).openCol 0)
                  * (tr.quantity : Rat), 0⟩]
            ++ (if next_timestamp < run_end_date
                then [⟨next_timestamp, 0,
                  ((future_data s).closeCol 1 - (future_data s).closeCol 0)
                    * (p.quantity : Rat)⟩]
                else []))
    ∧ ∀ σ (q : Position), (s, q) ∈ strategyLookup pbs σ [] →
        ((strategyLookup pbs σ []).map Prod.fst).Nodup →
        ((strategyLookup tbs σ []).map Prod.fst).Nodup →
        ((s ∉ (strategyLookup tbs σ []).map Prod.fst →
            tableOf (strategyLookup (update_total_pnl run_end_date timestamp
                next_timestamp future_data positions pbs trades tbs
                st).pnl_by_strategy_by_symbol σ []) s
              = tableOf (strategyLookup st.pnl_by_strategy_by_symbol σ []) s
                ++ (if next_timestamp < run_end_date
                    then [⟨next_timestamp, 0,
                      ((future_data s).closeCol 1 - (future_data s).closeCol 0)
                        * (q.quantity : Rat)⟩]
                    else []))
          ∧ ∀ tr : Trade, (s, tr) ∈ strategyLookup tbs σ [] →
            tableOf (strategyLookup (update_total_pnl run_end_date timestamp
                next_timestamp future_data positions pbs trades tbs
                st).pnl_by_strategy_by_symbol σ []) s
              = tableOf (strategyLookup st.pnl_by_strategy_by_symbol σ []) s
                ++ [⟨timestamp,
                    ((future_data s).closeCol 0 - (future_data s).openCol 0)
                      * (tr.quantity : Rat), 0⟩]
                ++ (if next_timestamp < run_end_date
                    then [⟨next_timestamp, 0,
                      ((future_data s).closeCol 1 - (future_data s).closeCol 0)
                        * (q.quantity : Rat)⟩]
                    else [])) := by
  have hout : (update_total_pnl run_end_date timestamp next_timestamp future_data
        positions pbs trades tbs st).pnl_by_symbol
      = (if next_timestamp < run_end_date
         then appendPnlRows
            (appendPnlRows st.pnl_by_symbol
              (calculate_pnl timestamp next_timestamp future_data positions trades).1)
            (calculate_pnl timestamp next_timestamp future_data positions trades).2
         else appendPnlRows st.pnl_by_symbol
            (calculate_pnl timestamp next_timestamp future_data positions trades).1) := rfl
  constructor
  · constructor
    · intro hnotr
      rw [hout]
      exact tableOf_guarded_append run_end_date timestamp next_timestamp future_data
        positions trades st.pnl_by_symbol s p hmem hnodup hnotr
    · intro tr htr
      rw [hout]
      exact tableOf_trade_and_position run_end_date timestamp next_timestamp future_data
        positions trades st.pnl_by_symbol s tr p htr hnodup_t hmem hnodup
  · intro σ q hσmem hσnodup hσtnodup
    have hσne : strategyLookup pbs σ [] ≠ [] := by
      intro hh
      rw [hh] at hσmem
      simp at hσmem
    have hσpbs : σ ∈ pbs.map Prod.fst := strategyLookup_ne_default_mem pbs σ hσne
    have hσin : σ ∈ (pbs.map Prod.fst ++ tbs.map Prod.fst).dedup :=
      List.mem_dedup.mpr (List.mem_append_left _ hσpbs)
    have hdnodup : ((pbs.map Prod.fst ++ tbs.map Prod.fst).dedup).Nodup :=
      List.nodup_dedup _
    have hby : (update_total_pnl run_end_date timestamp next_timestamp future_data
          positions pbs trades tbs st).pnl_by_strategy_by_symbol
        = ((pbs.map Prod.fst ++ tbs.map Prod.fst).dedup).foldl
            (fun acc2 s2 => strategySet acc2 s2
              ((fun σ2 tbl =>
                  if next_timestamp < run_end_date
                  then appendPnlRows
                    (appendPnlRows tbl
                      (calculate_pnl timestamp next_timestamp future_data
                        (strategyLookup pbs σ2 []) (strategyLookup tbs σ2 [])).1)
                    (calculate_pnl timestamp next_timestamp future_data
                      (strategyLookup pbs σ2 []) (strategyLookup tbs σ2 [])).2
                  else appendPnlRows tbl
                    (calculate_pnl timestamp next_timestamp future_data
                      (strategyLookup pbs σ2 []) (strategyLookup tbs σ2 [])).1)
                s2 (strategyLookup acc2 s2 [])))
            st.pnl_by_strategy_by_symbol := rfl
    rw [hby, foldl_strategySet_lookup_mem
      (fun σ2 tbl =>
        if next_timestamp < run_end_date
        then appendPnlRows
          (appendPnlRows tbl
            (calculate_pnl timestamp next_timestamp future_data
              (strategyLookup pbs σ2 []) (strategyLookup tbs σ2 [])).1)
          (calculate_pnl timestamp next_timestamp future_data
            (strategyLookup pbs σ2 []) (strategyLookup tbs σ2 [])).2
        else appendPnlRows tbl
          (calculate_pnl timestamp next_timestamp future_data
            (strategyLookup pbs σ2 []) (strategyLookup tbs σ2 [])).1)
      ((pbs.map Prod.fst ++ tbs.map Prod.fst).dedup)
      st.pnl_by_strategy_by_symbol σ hdnodup hσin]
    constructor
    · intro hσnotr
      show tableOf (if next_timestamp < run_end_date
          then appendPnlRows
            (appendPnlRows (strategyLookup st.pnl_by_strategy_by_symbol σ [])
              (calculate_pnl timestamp next_timestamp future_data
                (strategyLookup pbs σ []) (strategyLookup tbs σ [])).1)
            (calculate_pnl timestamp next_timestamp future_data
              (strategyLookup pbs σ []) (strategyLookup tbs σ [])).2
          else appendPnlRows (strategyLookup st.pnl_by_strategy_by_symbol σ [])
            (calculate_pnl timestamp next_timestamp future_data
              (strategyLookup pbs σ []) (strategyLookup tbs σ [])).1) s = _
      exact tableOf_guarded_append run_end_date timestamp next_timestamp future_data
        (strategyLookup pbs σ []) (strategyLookup tbs σ [])
        (strategyLookup st.pnl_by_strategy_by_symbol σ []) s q hσmem hσnodup hσnotr
    · intro tr htr
      show tableOf (if next_timestamp < run_end_date
          then appendPnlRows
            (appendPnlRows (strategyLookup st.pnl_by_strategy_by_symbol σ [])
              (calculate_pnl timestamp next_timestamp future_data
                (strategyLookup pbs σ []) (strategyLookup tbs σ [])).1)
            (calculate_pnl timestamp next_timestamp future_data
              (strategyLookup pbs σ []) (strategyLookup tbs σ [])).2
          else appendPnlRows (strategyLookup st.pnl_by_strategy_by_symbol σ [])
            (calculate_pnl timestamp next_timestamp future_data
              (strategyLookup pbs σ []) (strategyLookup tbs σ [])).1) s = _
      exact tableOf_trade_and_position run_end_date timestamp next_timestamp future_data
        (strategyLookup pbs σ []) (strategyLookup tbs σ [])
        (strategyLookup st.pnl_by_strategy_by_symbol σ []) s tr q htr hσtnodup
        hσmem hσnodup

/-- C3 witness: the spec's test-corpus scenario with the trade and the
position in the SAME step, read through the per-strategy table — the
strategy that traded 100 shares at timestamp 1 and holds 110 shares
gains the NewTrade row 1000 at timestamp 1 followed by the positional
row (130 − 120) × 110 = 1100 at timestamp 2, appended because 2 is
before the run end. -/
theorem positional_pnl_recorded_guarded_witness :
    tableOf (strategyLookup (update_total_pnl 100 1 2 fdFix [(aapl, posC3Fix)]
        [("strat", [(aapl, posC3Fix)])] [(aapl, tradeC2Fix)]
        [("strat", [(aapl, tradeC2Fix)])] ⟨[], []⟩).pnl_by_strategy_by_symbol
        "strat" []) aapl
      = [⟨1, 1000, 0⟩, ⟨2, 0, 1100⟩] := by
  have h := ((positional_pnl_recorded_guarded 100 1 2 fdFix [(aapl, posC3Fix)]
    [("strat", [(aapl, posC3Fix)])] [(aapl, tradeC2Fix)]
    [("strat", [(aapl, tradeC2Fix)])] ⟨[], []⟩ aapl posC3Fix
    (by simp) (by simp) (by simp)).2 "strat" posC3Fix
    (by simp [strategyLookup]) (by simp [strategyLookup])
    (by simp [strategyLookup])).2 tradeC2Fix (by simp [strategyLookup])
  rw [h]
  norm_num [tableOf, strategyLookup, fdFix, tradeC2Fix, posC3Fix]

/- ## Observed-data window characterization -/

theorem observedAfter_append_one (lookback : Nat) (days : List DayRows)
    (rows : DayRows) :
    observedAfter lookback (days ++ [rows])
      = stepObserved lookback (observedAfter lookback days) rows := by
  simp [observedAfter, List.foldl_append]

theorem iterLoop_observed (lookback : Nat) (rs re : Int)
    (future : Int → List DayRows) :
    ∀ (l : List (Int × DayRows)) (days : List DayRows),
      ∀ step ∈ iterLoop lookback rs re future (observedAfter lookback days) l,
        ∃ i, 1 ≤ i ∧ i + 1 < l.length ∧
          (∃ cur, l[i]? = some cur ∧ step.timestamp = cur.1 ∧ step.live = cur.2) ∧
          step.observed
            = observedAfter lookback (days ++ (l.take i).map Prod.snd) := by
  intro l
  induction l with
  | nil => intro days step hstep; simp [iterLoop] at hstep
  | cons prev rest ih =>
      intro days step hstep
      match rest, ih with
      | [], _ => simp [iterLoop] at hstep
      | [cur], _ => simp [iterLoop] at hstep
      | cur :: next :: rest3, ih =>
          rw [iterLoop, ← observedAfter_append_one lookback days prev.2] at hstep
          have hmem : step = (⟨cur.1, next.1,
                observedAfter lookback (days ++ [prev.2]), cur.2, future cur.1⟩ : YieldStep)
              ∨ step ∈ iterLoop lookback rs re future
                  (observedAfter lookback (days ++ [prev.2])) (cur :: next :: rest3) := by
            by_cases hc : rs ≤ cur.1 ∧ cur.1 < re
            · rw [if_pos hc] at hstep
              exact List.mem_cons.mp hstep
            · rw [if_neg hc] at hstep
              exact Or.inr hstep
          rcases hmem with h | h
          · refine ⟨1, le_refl 1, by simp, ⟨cur, rfl, by rw [h], by rw [h]⟩, ?_⟩
            rw [h]
            simp
          · obtain ⟨i, h1, h2, ⟨cur2, hcur2, hts, hlive⟩, hobs⟩ :=
              ih (days ++ [prev.2]) step h
            refine ⟨i + 1, by omega, by simpa using h2, ⟨cur2, ?_, hts, hlive⟩, ?_⟩
            · simpa using hcur2
            · rw [hobs]
              simp [List.append_assoc]

/-- C4 counterexample: a three-day single-series data dict with rows
10, 20, 30 at timestamps 0, 1, 2 and a large lookback.  The single
step yielded (current timestamp 1) carries the observed window `[10]`:
the current timestamp's own row (20) is absent, contradicting the
claim that the window includes all rows up to AND INCLUDING the
current timestamp, which would be `[10, 20]`. -/
theorem iter_data_observed_current_cex :
    (iter_data 5 0 100 (fun _ => []) dataFix).map (fun step => step.observed 0)
        = [[10]]
      ∧ ([10] : List Rat) ≠ [10, 20] := by
  exact ⟨rfl, by decide⟩

/-- C4 (amended): every step yielded by `DataProcessor.iter_data` for
current timestamp `keys[i]` carries as its observed window the trailing
accumulation of the rows of all timestamps STRICTLY BEFORE the current
one (the loop feeds `keys[i-1]`, the previous timestamp, into
`_update_observed_data` before yielding), truncated to the most recent
`lookback` entries per series — not of rows up to and including the
current timestamp. -/
theorem iter_data_observed_trailing (lookback : Nat) (rs re : Int)
    (future : Int → List DayRows) (data_dict : List (Int × DayRows))
    (step : YieldStep) (hstep : step ∈ iter_data lookback rs re future data_dict) :
    ∃ i, 1 ≤ i ∧ i + 1 < data_dict.length ∧
      (∃ cur, data_dict[i]? = some cur ∧ step.timestamp = cur.1 ∧ step.live = cur.2) ∧
      step.observed = observedAfter lookback ((data_dict.take i).map Prod.snd) := by
  have h := iterLoop_observed lookback rs re future data_dict [] step hstep
  simpa using h

/-- C4 witness: on the three-day fixture, the yielded step for current
timestamp 1 satisfies the amended characterization with `i = 1`. -/
theorem iter_data_observed_trailing_witness :
    ∃ i, 1 ≤ i ∧ i + 1 < dataFix.length ∧
      (∃ cur, dataFix[i]? = some cur ∧ stepFix.timestamp = cur.1
        ∧ stepFix.live = cur.2) ∧
      stepFix.observed = observedAfter 5 ((dataFix.take i).map Prod.snd) :=
  iter_data_observed_trailing 5 0 100 (fun _ => []) dataFix stepFix
    (List.mem_singleton.mpr rfl)

end Quantgpt
